import Mathlib

/-!
Verification of the term-standardization core of the repository
(`backend/services/term_service.py` together with
`backend/services/data_loader.py::search_exact`).

The embedding works over `List Char` for text (so that every operation is
kernel-computable), over `ℚ` for similarity scores (the Python code performs
exact decimal-style `round(x, n)` on its floats; we model that rounding with
half-even rounding on rationals), and models the external semantic-retrieval
collaborator (`VectorService.search_similar`) as an opaque function returning
`Except Unit (List SemResult)`: `Except.error` stands for a raised exception,
which the Python code catches with `try/except`.
-/

namespace TermStd

/-- Text is a list of characters (Python `str`). -/
abbrev Str := List Char

/-- Python `s.lower()` (ASCII case folding; the dictionary terms and queries in
this domain are Latin-script, digits, punctuation and CJK, which `Char.toLower`
folds identically to Python). -/
def lower (s : Str) : Str := s.map Char.toLower

/-- Floor of a rational, written out so that the kernel can evaluate it. -/
def ratFloor (x : ℚ) : ℤ := x.num.fdiv x.den

/-- Round a rational to the nearest integer, ties to even — the rounding mode of
Python `round`. -/
def rndHE (x : ℚ) : ℤ :=
  let f := ratFloor x
  let r := x - f
  if r < 1 / 2 then f
  else if 1 / 2 < r then f + 1
  else if f % 2 = 0 then f else f + 1

/-- Python `round(x, n)` on rationals. -/
def pyRound (x : ℚ) (n : ℕ) : ℚ := (rndHE (x * 10 ^ n) : ℚ) / 10 ^ n

/-- One row of the loaded dictionary (`DataLoader.terms_df`): a canonical term
and its label. -/
structure DictEntry where
  term : Str
  label : Str
deriving DecidableEq, Repr

/-- `DataLoader.search_exact`: case-insensitive exact lookup; returns all rows
whose term equals the query up to case, in dictionary order. -/
def search_exact (dict : List DictEntry) (query : Str) : List DictEntry :=
  dict.filter (fun e => decide (lower e.term = lower query))

/-- One result of `VectorService.search_similar`. -/
structure SemResult where
  term : Str
  similarity : ℚ
deriving DecidableEq, Repr

/-- The semantic-retrieval collaborator (`VectorService`).  `search_similar`
returns `Except.error ()` when the underlying call raises. -/
structure VectorService where
  is_initialized : Bool
  search_similar : Str → ℕ → Except Unit (List SemResult)

/-- `TermService`: the dictionary plus an optional vector service. -/
structure TermService where
  data_loader : List DictEntry
  vector_service : Option VectorService

/-- One entry of the `candidates` list of a match result. -/
structure SemCandidate where
  term : Str
  score : ℚ
  similarity : ℚ
  source : String
deriving DecidableEq, Repr

/-- The result dictionary of `TermService.standardize`.  The Python dict of the
`none`/empty-query outcomes has no `similarity` key at all; `similarity : Option ℚ`
records presence of that key. -/
structure MatchResult where
  query : Str
  standard_term : Option Str
  score : ℚ
  match_type : String
  similarity : Option ℚ
  message : String
  candidates : List SemCandidate
deriving DecidableEq, Repr

/-- The `match_type = none` outcome dictionaries of `standardize` (empty query,
no match, retrieval failure): no `standard_term`, `score = 0`, no `similarity`
key, empty candidates. -/
def noneResult (query : Str) (msg : String) : MatchResult :=
  { query := query, standard_term := none, score := 0, match_type := "none",
    similarity := none, message := msg, candidates := [] }

/-- Candidate entry built from one semantic result (the loop at
`term_service.py:81-88`). -/
def mkCandidate (r : SemResult) : SemCandidate :=
  { term := r.term, score := pyRound (r.similarity * 100) 2,
    similarity := r.similarity, source := "semantic" }

/-- `TermService.standardize` (`term_service.py:32-126`). -/
def standardize (svc : TermService) (query : Str) (semantic_threshold : ℚ) :
    MatchResult :=
  if query = [] then
    noneResult query "查询为空"
  else
    match search_exact svc.data_loader query with
    | e :: _ =>
      { query := query, standard_term := some e.term, score := 100,
        match_type := "exact", similarity := some 1, message := "精确匹配",
        candidates := [] }
    | [] =>
      match svc.vector_service with
      | none => noneResult query "未找到匹配项"
      | some vs =>
        if vs.is_initialized then
          match vs.search_similar query 5 with
          | Except.error _ => noneResult query "未找到匹配项"
          | Except.ok [] => noneResult query "未找到匹配项"
          | Except.ok (best :: rest) =>
            let candidates := (best :: rest).map mkCandidate
            if semantic_threshold ≤ best.similarity then
              { query := query, standard_term := some best.term,
                score := pyRound (best.similarity * 100) 2,
                match_type := "semantic",
                similarity := some (pyRound best.similarity 4),
                message := "语义匹配", candidates := candidates }
            else
              { query := query, standard_term := none,
                score := pyRound (best.similarity * 100) 2,
                match_type := "semantic_low",
                similarity := some (pyRound best.similarity 4),
                message := "语义匹配置信度较低", candidates := candidates }
        else noneResult query "未找到匹配项"

/-- An entry of the list returned by `get_similar_terms`. -/
structure SimTerm where
  term : Str
  similarity : ℚ
deriving DecidableEq, Repr

/-- The accumulation loop of `get_similar_terms` (`term_service.py:176-185`):
append every result that is not the reference term (case-insensitive) and whose
similarity reaches the threshold, breaking once the accumulated list has at
least `limit` entries (the break is tested after appending). -/
def similarLoop (term : Str) (threshold : ℚ) (limit : ℕ) :
    List SemResult → List SimTerm → List SimTerm
  | [], acc => acc
  | r :: rs, acc =>
    if lower r.term ≠ lower term ∧ threshold ≤ r.similarity then
      let acc2 := acc ++ [{ term := r.term, similarity := pyRound r.similarity 4 }]
      if limit ≤ acc2.length then acc2 else similarLoop term threshold limit rs acc2
    else similarLoop term threshold limit rs acc

/-- `TermService.get_similar_terms` (`term_service.py:151-190`). -/
def get_similar_terms (svc : TermService) (term : Str) (limit : ℕ)
    (threshold : ℚ) : List SimTerm :=
  match svc.vector_service with
  | none => []
  | some vs =>
    if vs.is_initialized then
      match vs.search_similar term (limit + 5) with
      | Except.error _ => []
      | Except.ok results => similarLoop term threshold limit results []
    else []

/-! ### Character classes of the extraction regexes

`re.findall` of the single-token pattern (a Latin letter followed by letters,
digits, hyphen, slash or ampersand, between word boundaries) and friends.  Word
characters (for `\b`) are Python `\w`; on the character classes occurring in
this domain (ASCII plus CJK ideographs) that is ASCII alphanumerics, the
underscore, and the CJK range `一-鿿`. -/

/-- `[A-Za-z]`. -/
def isLatinLetter (c : Char) : Bool :=
  decide (('A' ≤ c ∧ c ≤ 'Z') ∨ ('a' ≤ c ∧ c ≤ 'z'))

/-- `[0-9]`. -/
def isDigitC (c : Char) : Bool := decide ('0' ≤ c ∧ c ≤ '9')

/-- `[一-鿿]`. -/
def isCJK (c : Char) : Bool := decide (19968 ≤ c.toNat ∧ c.toNat ≤ 40959)

/-- Python `\w` on the character classes of this domain. -/
def isWordChar (c : Char) : Bool :=
  isLatinLetter c || isDigitC c || decide (c = '_') || isCJK c

/-- The continuation class of a token: letters, digits, hyphen, slash,
ampersand. -/
def isTokChar (c : Char) : Bool :=
  isLatinLetter c || isDigitC c || decide (c = '-') || decide (c = '/') ||
    decide (c = '&')

/-- Python `\s` (ASCII whitespace). -/
def isSpaceChar (c : Char) : Bool :=
  decide (c = ' ') || decide (c = '\t') || decide (c = '\n') ||
    decide (c = '\x0d') || decide (c = '\x0b') || decide (c = '\x0c')

/-- Wordness of an optional character; out of range counts as non-word, which is
how `\b` treats the ends of the string. -/
def wordOpt : Option Char → Bool
  | some c => isWordChar c
  | none => false

/-- Greedy star with a trailing `\b`, resolved by backtracking: given the
maximal token run `run` starting at the current match position and the character
`next` just after the run, return `some m` for the largest end position `m + 1 ≤
run.length` that lies on a word boundary (`m` is the number of matched
characters after the first), or `none` when no end position works.  The
argument of the recursion is the candidate end position. -/
def tokEnd (run : Str) (next : Option Char) : ℕ → Option ℕ
  | 0 => none
  | k + 1 =>
    let after := match run.get? (k + 1) with
      | some c => some c
      | none => next
    if wordOpt (run.get? k) ≠ wordOpt after then some k
    else tokEnd run next k

/-- `re.findall` of the single-token pattern `\b TOKEN \b`: leftmost,
non-overlapping matches; `prev` is the character just before the current scan
position (`none` at the start of the string).  The first argument is fuel
making the recursion structural (every step consumes at least one character, so
`s.length + 1` fuel always suffices; the wrapper `findTokens` provides it). -/
def findTokensF : ℕ → Option Char → Str → List Str
  | 0, _, _ => []
  | _ + 1, _, [] => []
  | fuel + 1, prev, c :: rest =>
    if isLatinLetter c && !wordOpt prev then
      let run := c :: rest.takeWhile isTokChar
      let next := (rest.drop (run.length - 1)).head?
      match tokEnd run next run.length with
      | some m => run.take (m + 1) :: findTokensF fuel (run.get? m) (rest.drop m)
      | none => findTokensF fuel (some c) rest
    else findTokensF fuel (some c) rest

/-- The single-token scan with sufficient fuel. -/
def findTokens (prev : Option Char) (s : Str) : List Str :=
  findTokensF (s.length + 1) prev s

/-- A match attempt of `\b[A-Za-z]TOK*\s+[A-Za-z]TOK*\b` at the position of
`c` (boundary before `c` already checked by the caller): returns the number of
matched characters beyond `c`, or `none`.  The first token cannot backtrack
(token characters and whitespace are disjoint classes), so it is the maximal
token run; likewise `\s+` is the maximal whitespace run; the trailing `\b`
backtracks only over the second token's star. -/
def bigramAt (c : Char) (rest : Str) : Option ℕ :=
  if isLatinLetter c then
    let r1 := c :: rest.takeWhile isTokChar
    let a1 := rest.drop (r1.length - 1)
    let w1 := a1.takeWhile isSpaceChar
    if w1 = [] then none
    else
      match a1.drop w1.length with
      | [] => none
      | d :: rest2 =>
        if isLatinLetter d then
          let r2 := d :: rest2.takeWhile isTokChar
          let next2 := (rest2.drop (r2.length - 1)).head?
          match tokEnd r2 next2 r2.length with
          | some m => some (r1.length + w1.length + m)
          | none => none
        else none
  else none

/-- `re.findall` for the bigram pattern (fuelled; see `findTokensF`). -/
def findBigramsF : ℕ → Option Char → Str → List Str
  | 0, _, _ => []
  | _ + 1, _, [] => []
  | fuel + 1, prev, c :: rest =>
    if !wordOpt prev then
      match bigramAt c rest with
      | some n =>
        (c :: rest).take (n + 1) ::
          findBigramsF fuel ((c :: rest).get? n) (rest.drop n)
      | none => findBigramsF fuel (some c) rest
    else findBigramsF fuel (some c) rest

/-- The bigram scan with sufficient fuel. -/
def findBigrams (prev : Option Char) (s : Str) : List Str :=
  findBigramsF (s.length + 1) prev s

/-- A match attempt of the trigram pattern
`\b[A-Za-z]TOK*\s+[A-Za-z]TOK*\s+[A-Za-z]TOK*\b` at the position of `c`. -/
def trigramAt (c : Char) (rest : Str) : Option ℕ :=
  if isLatinLetter c then
    let r1 := c :: rest.takeWhile isTokChar
    let a1 := rest.drop (r1.length - 1)
    let w1 := a1.takeWhile isSpaceChar
    if w1 = [] then none
    else
      match a1.drop w1.length with
      | [] => none
      | d :: rest2 =>
        if isLatinLetter d then
          let r2 := d :: rest2.takeWhile isTokChar
          let a2 := rest2.drop (r2.length - 1)
          let w2 := a2.takeWhile isSpaceChar
          if w2 = [] then none
          else
            match a2.drop w2.length with
            | [] => none
            | e :: rest3 =>
              if isLatinLetter e then
                let r3 := e :: rest3.takeWhile isTokChar
                let next3 := (rest3.drop (r3.length - 1)).head?
                match tokEnd r3 next3 r3.length with
                | some m =>
                  some (r1.length + w1.length + r2.length + w2.length + m)
                | none => none
              else none
        else none
  else none

/-- `re.findall` for the trigram pattern (fuelled; see `findTokensF`). -/
def findTrigramsF : ℕ → Option Char → Str → List Str
  | 0, _, _ => []
  | _ + 1, _, [] => []
  | fuel + 1, prev, c :: rest =>
    if !wordOpt prev then
      match trigramAt c rest with
      | some n =>
        (c :: rest).take (n + 1) ::
          findTrigramsF fuel ((c :: rest).get? n) (rest.drop n)
      | none => findTrigramsF fuel (some c) rest
    else findTrigramsF fuel (some c) rest

/-- The trigram scan with sufficient fuel. -/
def findTrigrams (prev : Option Char) (s : Str) : List Str :=
  findTrigramsF (s.length + 1) prev s

/-- `re.findall(r'[一-鿿]{2,6}', text)`: a maximal CJK run is consumed
greedily six characters at a time; a remainder of one character is not a
match. -/
def findCJKF : ℕ → Str → List Str
  | 0, _ => []
  | _ + 1, [] => []
  | fuel + 1, c :: rest =>
    if isCJK c then
      let run := c :: rest.takeWhile isCJK
      if 2 ≤ run.length then
        let t := min 6 run.length
        run.take t :: findCJKF fuel (rest.drop (t - 1))
      else findCJKF fuel rest
    else findCJKF fuel rest

/-- The CJK scan with sufficient fuel. -/
def findCJK (s : Str) : List Str :=
  findCJKF (s.length + 1) s

/-! ### Candidate extraction with global de-duplication
(`term_service.py:220-253`).  `seen` is the set of lowercase keys already
accepted (modelled as a list used only through membership); for strategy 1 the
guard additionally requires the minimum word length. -/

/-- One strategy loop: fold the found spans into `(candidates, seen)`,
appending a span when its guard holds and its lowercase key is unseen. -/
def addCands (guard : Str → Bool) (st : List Str × List Str)
    (items : List Str) : List Str × List Str :=
  items.foldl
    (fun st w =>
      if guard w ∧ lower w ∉ st.2 then (st.1 ++ [w], lower w :: st.2) else st)
    st

/-- The four extraction strategies in source order with the shared `seen`
set. -/
def extractCandidates (text : Str) (min_word_length : ℕ) : List Str :=
  let p1 := addCands (fun w => decide (min_word_length ≤ w.length)) ([], [])
    (findTokens none text)
  let p2 := addCands (fun _ => true) p1 (findBigrams none text)
  let p3 := addCands (fun _ => true) p2 (findTrigrams none text)
  let p4 := addCands (fun _ => true) p3 (findCJK text)
  p4.1

/-! ### Identification pass (`term_service.py:260-294`) -/

/-- An entry of `identified_terms`. -/
structure IdTerm where
  original : Str
  standard : Str
  similarity : ℚ
  match_type : String
deriving DecidableEq, Repr

/-- Processing of one candidate inside the loop: exact lookup first (an exact
hit always `continue`s, emitting only when the standard differs
case-sensitively); otherwise semantic retrieval with `top_k = 1`, emitting when
the best similarity reaches the threshold and the term differs
case-insensitively.  A raised retrieval exception (`Except.error`) is caught and
the candidate is skipped. -/
def processCandidate (dict : List DictEntry) (vs : VectorService) (thr : ℚ)
    (term : Str) : List IdTerm :=
  match search_exact dict term with
  | e :: _ =>
    if term ≠ e.term then
      [{ original := term, standard := e.term, similarity := 1,
         match_type := "exact" }]
    else []
  | [] =>
    match vs.search_similar term 1 with
    | Except.error _ => []
    | Except.ok [] => []
    | Except.ok (best :: _) =>
      if thr ≤ best.similarity ∧ lower term ≠ lower best.term then
        [{ original := term, standard := best.term,
           similarity := best.similarity, match_type := "semantic" }]
      else []

/-- The loop over all candidates, in extraction order. -/
def identificationPass (dict : List DictEntry) (vs : VectorService) (thr : ℚ)
    (cands : List Str) : List IdTerm :=
  cands.foldr (fun c acc => processCandidate dict vs thr c ++ acc) []

/-! ### Replacement pass (`term_service.py:296-331`) -/

/-- An entry of `replacements`. -/
structure ReplRecord where
  original : Str
  standard : Str
  count : ℕ
  similarity : ℚ
  match_type : String
deriving DecidableEq, Repr

/-- Does the whole-word, case-insensitive pattern for `orig` match at the head
of `s`, with `prev` the character just before `s` in the scanned string?  This
is `\b re.escape(orig) \b` with `re.IGNORECASE`. -/
def matchHere (orig : Str) (prev : Option Char) (s : Str) : Prop :=
  orig ≠ [] ∧
  (s.take orig.length).map Char.toLower = orig.map Char.toLower ∧
  wordOpt prev ≠ wordOpt s.head? ∧
  wordOpt (s.get? (orig.length - 1)) ≠ wordOpt (s.get? orig.length)

instance decMatchHere (orig : Str) (prev : Option Char) (s : Str) :
    Decidable (matchHere orig prev s) := by
  unfold matchHere; infer_instance

/-- The shared scan of `re.findall` (its length is the count at
`term_service.py:311`) and `re.sub` (`term_service.py:313`): leftmost,
non-overlapping whole-word case-insensitive occurrences of `orig`; returns the
number of matches and the text with every match replaced by `std`.  After a
match the scan resumes in the source text just past the matched span. -/
def subScanF (orig std : Str) : ℕ → Option Char → Str → ℕ × Str
  | 0, _, _ => (0, [])
  | _ + 1, _, [] => (0, [])
  | fuel + 1, prev, c :: rest =>
    if matchHere orig prev (c :: rest) then
      let res := subScanF orig std fuel ((c :: rest).get? (orig.length - 1))
        (rest.drop (orig.length - 1))
      (res.1 + 1, std ++ res.2)
    else
      let res := subScanF orig std fuel (some c) rest
      (res.1, c :: res.2)

/-- The substitution scan with sufficient fuel. -/
def subScan (orig std : Str) (prev : Option Char) (s : Str) : ℕ × Str :=
  subScanF orig std (s.length + 1) prev s

/-- Insertion into a list, passing over strictly longer originals; together
with `sortByLenDesc` this is the unique stable descending-by-length sort, which
is what Python `sorted(key=len, reverse=True)` produces at
`term_service.py:301`. -/
def insertByLen (x : IdTerm) : List IdTerm → List IdTerm
  | [] => [x]
  | y :: ys =>
    if x.original.length < y.original.length then y :: insertByLen x ys
    else x :: y :: ys

/-- Stable sort by `length(original)` descending. -/
def sortByLenDesc : List IdTerm → List IdTerm
  | [] => []
  | x :: xs => insertByLen x (sortByLenDesc xs)

/-- One iteration of the replacement loop: count occurrences in the current
text; when positive, substitute them and append a record. -/
def replaceStep (st : Str × List ReplRecord) (item : IdTerm) :
    Str × List ReplRecord :=
  let res := subScan item.original item.standard none st.1
  if 0 < res.1 then
    (res.2, st.2 ++ [{ original := item.original, standard := item.standard,
                       count := res.1, similarity := item.similarity,
                       match_type := item.match_type }])
  else st

/-- The replacement loop over the sorted identified terms, mutating the text
cumulatively. -/
def replacementPass (sorted : List IdTerm) (text : Str) :
    Str × List ReplRecord :=
  sorted.foldl replaceStep (text, [])

/-- The result dictionary of `identify_and_replace_terms`.  The early no-op
return (`term_service.py:210-216`) has no `total_replacements` key;
`total_replacements : Option ℕ` records presence of that key. -/
structure TextStdResult where
  original_text : Str
  processed_text : Str
  identified_terms : List IdTerm
  replacements : List ReplRecord
  total_replacements : Option ℕ
  message : String
deriving DecidableEq, Repr

/-- The early no-op return of `identify_and_replace_terms`
(`term_service.py:210-216`): the input text unchanged, empty lists, and —
unlike the normal return — NO `total_replacements` key. -/
def noopResult (text : Str) : TextStdResult :=
  { original_text := text, processed_text := text, identified_terms := [],
    replacements := [], total_replacements := none,
    message := "文本为空或向量服务不可用" }

/-- `TermService.identify_and_replace_terms` (`term_service.py:192-331`). -/
def identify_and_replace_terms (svc : TermService) (text : Str) (thr : ℚ)
    (min_word_length : ℕ) : TextStdResult :=
  match svc.vector_service with
  | none => noopResult text
  | some vs =>
    if text = [] ∨ vs.is_initialized = false then
      noopResult text
    else
      let cands := extractCandidates text min_word_length
      let identified := identificationPass svc.data_loader vs thr cands
      let rp := replacementPass (sortByLenDesc identified) text
      let total := (rp.2.map (fun r => r.count)).sum
      { original_text := text, processed_text := rp.1,
        identified_terms := identified, replacements := rp.2,
        total_replacements := some total,
        message := "成功识别 " ++ toString identified.length ++ " 个术语，执行 "
          ++ toString total ++ " 次替换" }

/-! ### Lemmas about the rounding model -/

lemma ratFloor_eq (x : ℚ) : ratFloor x = Int.floor x := by
  rw [Rat.floor_def]
  exact Int.fdiv_eq_ediv _ (Int.natCast_nonneg _)

lemma rndHE_intCast (z : ℤ) : rndHE (z : ℚ) = z := by
  unfold rndHE
  rw [ratFloor_eq]
  norm_num

lemma rndHE_nonneg {x : ℚ} (hx : 0 ≤ x) : 0 ≤ rndHE x := by
  unfold rndHE
  rw [ratFloor_eq]
  have h0 : (0 : ℤ) ≤ Int.floor x := Int.floor_nonneg.mpr hx
  dsimp only
  split
  · exact h0
  · split
    · omega
    · split
      · exact h0
      · omega

lemma rndHE_le {x : ℚ} {n : ℤ} (hx : x ≤ (n : ℚ)) : rndHE x ≤ n := by
  unfold rndHE
  rw [ratFloor_eq]
  have hf : Int.floor x ≤ n := by
    have h := Int.floor_mono hx
    simpa using h
  dsimp only
  split
  · exact hf
  · rename_i h1
    split
    · rename_i h2
      -- here 1/2 < x - floor x, so floor x < x ≤ n, hence floor x + 1 ≤ n
      have hlt : (Int.floor x : ℚ) < x := by
        have : (0 : ℚ) < x - Int.floor x := lt_trans (by norm_num) h2
        linarith
      have : Int.floor x < n := by
        have hxn : (Int.floor x : ℚ) < (n : ℚ) := lt_of_lt_of_le hlt hx
        exact_mod_cast hxn
      omega
    · split
      · exact hf
      · rename_i h2 h3
        -- the tie case: x - floor x = 1/2, so floor x < x ≤ n
        have hr : x - Int.floor x = 1 / 2 := le_antisymm (not_lt.mp h2) (not_lt.mp h1)
        have hlt : (Int.floor x : ℚ) < x := by linarith
        have : Int.floor x < n := by
          have hxn : (Int.floor x : ℚ) < (n : ℚ) := lt_of_lt_of_le hlt hx
          exact_mod_cast hxn
        omega

lemma pyRound_nonneg {x : ℚ} (hx : 0 ≤ x) (n : ℕ) : 0 ≤ pyRound x n := by
  unfold pyRound
  have h1 : (0 : ℤ) ≤ rndHE (x * 10 ^ n) := rndHE_nonneg (by positivity)
  have h2 : (0 : ℚ) ≤ (rndHE (x * 10 ^ n) : ℚ) := by exact_mod_cast h1
  positivity

lemma pyRound_le_one {x : ℚ} (hx : x ≤ 1) (n : ℕ) : pyRound x n ≤ 1 := by
  unfold pyRound
  have h1 : rndHE (x * 10 ^ n) ≤ (10 : ℤ) ^ n := by
    apply rndHE_le
    push_cast
    have hp : (0 : ℚ) < 10 ^ n := by positivity
    nlinarith
  have h2 : (rndHE (x * 10 ^ n) : ℚ) ≤ (10 : ℚ) ^ n := by exact_mod_cast h1
  have hp : (0 : ℚ) < 10 ^ n := by positivity
  rw [div_le_one hp]
  exact h2

/-- Re-rounding the stored 4-digit similarity to 2 digits after scaling by 100
agrees with rounding the raw similarity: the `score` and `similarity` fields of
a semantic match satisfy the `score = round(similarity * 100, 2)` relation. -/
lemma pyRound_pyRound4_mul100 (s : ℚ) :
    pyRound (pyRound s 4 * 100) 2 = pyRound (s * 100) 2 := by
  unfold pyRound
  have h1 : ((rndHE (s * 10 ^ 4) : ℚ) / 10 ^ 4 * 100) * 10 ^ 2
      = (rndHE (s * 10 ^ 4) : ℚ) := by ring
  rw [h1, rndHE_intCast]
  have h2 : s * 100 * 10 ^ 2 = s * 10 ^ 4 := by ring
  rw [h2]

/-! ### Branch characterizations of `standardize` -/

lemma standardize_empty (svc : TermService) (t : ℚ) :
    standardize svc [] t = noneResult [] "查询为空" := rfl

lemma standardize_exact (svc : TermService) (q : Str) (t : ℚ) (hq : q ≠ [])
    (e : DictEntry) (es : List DictEntry)
    (hse : search_exact svc.data_loader q = e :: es) :
    standardize svc q t =
      { query := q, standard_term := some e.term, score := 100,
        match_type := "exact", similarity := some 1, message := "精确匹配",
        candidates := [] } := by
  unfold standardize
  rw [if_neg hq, hse]

lemma standardize_noVS (svc : TermService) (q : Str) (t : ℚ) (hq : q ≠ [])
    (hse : search_exact svc.data_loader q = [])
    (hvs : svc.vector_service = none) :
    standardize svc q t = noneResult q "未找到匹配项" := by
  unfold standardize
  rw [if_neg hq, hse, hvs]

lemma standardize_uninit (svc : TermService) (q : Str) (t : ℚ) (hq : q ≠ [])
    (vs : VectorService)
    (hse : search_exact svc.data_loader q = [])
    (hvs : svc.vector_service = some vs)
    (hinit : vs.is_initialized = false) :
    standardize svc q t = noneResult q "未找到匹配项" := by
  unfold standardize
  rw [if_neg hq]
  simp only [hse, hvs, hinit, Bool.false_eq_true, if_false]

lemma standardize_error (svc : TermService) (q : Str) (t : ℚ) (hq : q ≠ [])
    (vs : VectorService) (u : Unit)
    (hse : search_exact svc.data_loader q = [])
    (hvs : svc.vector_service = some vs)
    (hinit : vs.is_initialized = true)
    (hsr : vs.search_similar q 5 = Except.error u) :
    standardize svc q t = noneResult q "未找到匹配项" := by
  unfold standardize
  rw [if_neg hq]
  simp only [hse, hvs, hinit, hsr, if_true]

lemma standardize_okNil (svc : TermService) (q : Str) (t : ℚ) (hq : q ≠ [])
    (vs : VectorService)
    (hse : search_exact svc.data_loader q = [])
    (hvs : svc.vector_service = some vs)
    (hinit : vs.is_initialized = true)
    (hsr : vs.search_similar q 5 = Except.ok []) :
    standardize svc q t = noneResult q "未找到匹配项" := by
  unfold standardize
  rw [if_neg hq]
  simp only [hse, hvs, hinit, hsr, if_true]

lemma standardize_semantic_branch (svc : TermService) (q : Str) (hq : q ≠ [])
    (vs : VectorService) (b : SemResult) (tl : List SemResult)
    (hse : search_exact svc.data_loader q = [])
    (hvs : svc.vector_service = some vs)
    (hinit : vs.is_initialized = true)
    (hsr : vs.search_similar q 5 = Except.ok (b :: tl)) :
    ∀ t2 : ℚ, standardize svc q t2 =
      if t2 ≤ b.similarity then
        { query := q, standard_term := some b.term,
          score := pyRound (b.similarity * 100) 2, match_type := "semantic",
          similarity := some (pyRound b.similarity 4),
          message := "语义匹配", candidates := (b :: tl).map mkCandidate }
      else
        { query := q, standard_term := none,
          score := pyRound (b.similarity * 100) 2, match_type := "semantic_low",
          similarity := some (pyRound b.similarity 4),
          message := "语义匹配置信度较低",
          candidates := (b :: tl).map mkCandidate } := by
  intro t2
  unfold standardize
  rw [if_neg hq]
  simp only [hse, hvs, hinit, hsr, if_true]

/-! ### C1 — exact precedence in `standardize` -/

/-- A dictionary holding a single empty canonical term (reachable through the
loader: `dropna` removes only NaN rows and `str.strip` can leave an empty
term). -/
def emptyTermDict : List DictEntry := [{ term := [], label := [] }]

/-- A service over `emptyTermDict` with no vector service. -/
def emptyTermSvc : TermService :=
  { data_loader := emptyTermDict, vector_service := none }

/-- C1 (as frozen) is false at the boundary: the empty query is
case-insensitively equal to the empty canonical term of `emptyTermDict`, yet
`standardize` answers `match_type = "none"`, because the emptiness guard
precedes the exact lookup. -/
theorem C1_counterexample :
    (∃ e ∈ emptyTermDict, lower e.term = lower ([] : Str)) ∧
    (standardize emptyTermSvc [] (13 / 20)).match_type = "none" := by
  with_unfolding_all decide

/-- C1 amended: for every NON-EMPTY query case-insensitively equal to some
canonical term, `standardize` returns `match_type = "exact"`, `score = 100`,
`similarity = 1.0` and empty candidates, for every threshold and vector
service. -/
theorem C1_exact_precedence (svc : TermService) (q : Str) (t : ℚ)
    (hq : q ≠ []) (e : DictEntry) (he : e ∈ svc.data_loader)
    (hm : lower e.term = lower q) :
    (standardize svc q t).match_type = "exact" ∧
    (standardize svc q t).score = 100 ∧
    (standardize svc q t).similarity = some 1 ∧
    (standardize svc q t).candidates = [] := by
  have hmem : e ∈ search_exact svc.data_loader q := by
    unfold search_exact
    exact List.mem_filter.mpr ⟨he, by simp [hm]⟩
  cases hse : search_exact svc.data_loader q with
  | nil => rw [hse] at hmem; exact absurd hmem (List.not_mem_nil e)
  | cons a l =>
    unfold standardize
    rw [if_neg hq, hse]
    exact ⟨rfl, rfl, rfl, rfl⟩

/-- A one-entry dictionary for the C1 witness. -/
def riskDict : List DictEntry := [{ term := "risk".toList, label := [] }]

/-- A service over `riskDict` with no vector service. -/
def riskSvc : TermService := { data_loader := riskDict, vector_service := none }

/-- Witness for C1: `riskDict` queried with different casing. -/
theorem C1_witness :
    (standardize riskSvc "RISK".toList (13 / 20)).match_type = "exact" ∧
    (standardize riskSvc "RISK".toList (13 / 20)).score = 100 ∧
    (standardize riskSvc "RISK".toList (13 / 20)).similarity = some 1 ∧
    (standardize riskSvc "RISK".toList (13 / 20)).candidates = [] :=
  C1_exact_precedence riskSvc "RISK".toList (13 / 20) (by decide)
    { term := "risk".toList, label := [] } (by decide) (by decide)

/-! ### C2 — semantic threshold boundary in `standardize` -/

/-- C2: for a non-exact query with a non-empty semantic result list whose best
similarity is `s`, `match_type` is `semantic` with the best standard term
exactly when `s ≥ t`, otherwise `semantic_low` with no standard term; in both
branches the score is `round(s * 100, 2)` and the candidate list maps the
retrieved results one-to-one in retrieval order (hence at most 5 under the
collaborator contract) and does not depend on the threshold. -/
theorem C2_threshold_boundary (svc : TermService) (q : Str) (t : ℚ)
    (vs : VectorService) (b : SemResult) (tl : List SemResult)
    (hq : q ≠ [])
    (hex : search_exact svc.data_loader q = [])
    (hvs : svc.vector_service = some vs)
    (hinit : vs.is_initialized = true)
    (hsr : vs.search_similar q 5 = Except.ok (b :: tl))
    (hlen : (b :: tl).length ≤ 5) :
    (standardize svc q t).match_type
      = (if t ≤ b.similarity then "semantic" else "semantic_low") ∧
    (standardize svc q t).standard_term
      = (if t ≤ b.similarity then some b.term else none) ∧
    (standardize svc q t).score = pyRound (b.similarity * 100) 2 ∧
    (∀ t2 : ℚ, (standardize svc q t2).candidates = (b :: tl).map mkCandidate) ∧
    (standardize svc q t).candidates.length ≤ 5 := by
  have hbranch := standardize_semantic_branch svc q hq vs b tl hex hvs hinit hsr
  have hlen5 : ((b :: tl).map mkCandidate).length ≤ 5 := by
    rw [List.length_map]; exact hlen
  have hcand : ∀ t2 : ℚ,
      (standardize svc q t2).candidates = (b :: tl).map mkCandidate := by
    intro t2
    rw [hbranch t2]
    by_cases h2 : t2 ≤ b.similarity
    · rw [if_pos h2]
    · rw [if_neg h2]
  by_cases hbt : t ≤ b.similarity
  · simp only [hbranch t, if_pos hbt]
    exact ⟨by trivial, by trivial, by trivial, hcand, hlen5⟩
  · simp only [hbranch t, if_neg hbt]
    exact ⟨by trivial, by trivial, by trivial, hcand, hlen5⟩

/-- The spec's end-to-end scenario: dictionary holds `ROE`; the collaborator
always returns `ROE` with similarity 0.72. -/
def roeVS : VectorService :=
  { is_initialized := true,
    search_similar := fun _ _ =>
      Except.ok [{ term := "ROE".toList, similarity := 72 / 100 }] }

/-- The service for the C2 witness. -/
def roeSvc : TermService :=
  { data_loader := [{ term := "ROE".toList, label := [] }],
    vector_service := some roeVS }

/-- Witness for C2: the CJK query `股本回报率` against `roeSvc` with threshold
0.65 lands in the `semantic` branch with score `round(0.72 * 100, 2)`. -/
theorem C2_witness :
    (standardize roeSvc "股本回报率".toList (65 / 100)).match_type
      = (if (65 / 100 : ℚ) ≤ (72 / 100 : ℚ) then "semantic" else "semantic_low") ∧
    (standardize roeSvc "股本回报率".toList (65 / 100)).standard_term
      = (if (65 / 100 : ℚ) ≤ (72 / 100 : ℚ) then some "ROE".toList else none) ∧
    (standardize roeSvc "股本回报率".toList (65 / 100)).score
      = pyRound ((72 / 100 : ℚ) * 100) 2 ∧
    (∀ t2 : ℚ, (standardize roeSvc "股本回报率".toList t2).candidates
      = [({ term := "ROE".toList, similarity := (72 / 100 : ℚ) } : SemResult)].map mkCandidate) ∧
    (standardize roeSvc "股本回报率".toList (65 / 100)).candidates.length ≤ 5 :=
  C2_threshold_boundary roeSvc "股本回报率".toList (65 / 100) roeVS
    { term := "ROE".toList, similarity := 72 / 100 } []
    (by decide) (by with_unfolding_all decide) rfl rfl rfl (by decide)

/-! ### C8 — score/similarity invariant of `standardize` -/

/-- C8 (as frozen) is false: the empty-query outcome of `standardize` carries
no `similarity` key at all (`term_service.py:47-55`), so it does not "contain a
similarity value in [0,1]". The same holds for the `none` outcome. -/
theorem C8_counterexample :
    (standardize riskSvc [] (13 / 20)).similarity = none ∧
    (standardize riskSvc "hedge".toList (13 / 20)).match_type = "none" ∧
    (standardize riskSvc "hedge".toList (13 / 20)).similarity = none := by
  with_unfolding_all decide

/-- C8 amended: when the collaborator's results obey its contract
(similarities in [0,1]), every `MatchResult` of `standardize` that carries a
`similarity` value has it in [0,1] and satisfies
`score = round(similarity * 100, 2)`; the outcomes without a `similarity` key
are exactly the `match_type = "none"` ones, and they carry `score = 0`. -/
theorem C8_score_similarity (svc : TermService) (q : Str) (t : ℚ)
    (hvalid : ∀ vs, svc.vector_service = some vs →
      ∀ r k rs, vs.search_similar r k = Except.ok rs →
        ∀ x ∈ rs, 0 ≤ x.similarity ∧ x.similarity ≤ 1) :
    (∀ s, (standardize svc q t).similarity = some s →
      0 ≤ s ∧ s ≤ 1 ∧ (standardize svc q t).score = pyRound (s * 100) 2) ∧
    ((standardize svc q t).similarity = none →
      (standardize svc q t).score = 0 ∧
      (standardize svc q t).match_type = "none") := by
  by_cases hq : q = []
  · subst hq
    rw [standardize_empty svc t]
    exact ⟨fun s hs => by simp [noneResult] at hs, fun _ => ⟨rfl, rfl⟩⟩
  · cases hse : search_exact svc.data_loader q with
    | cons e es =>
      rw [standardize_exact svc q t hq e es hse]
      refine ⟨fun s hs => ?_, fun h => by simp at h⟩
      have hs1 : s = 1 := by simpa using hs.symm
      subst hs1
      refine ⟨by norm_num, le_refl 1, ?_⟩
      show (100 : ℚ) = pyRound (1 * 100) 2
      with_unfolding_all decide
    | nil =>
      cases hvs : svc.vector_service with
      | none =>
        rw [standardize_noVS svc q t hq hse hvs]
        exact ⟨fun s hs => by simp [noneResult] at hs, fun _ => ⟨rfl, rfl⟩⟩
      | some vs =>
        cases hinit : vs.is_initialized with
        | false =>
          rw [standardize_uninit svc q t hq vs hse hvs hinit]
          exact ⟨fun s hs => by simp [noneResult] at hs, fun _ => ⟨rfl, rfl⟩⟩
        | true =>
          cases hsr : vs.search_similar q 5 with
          | error u =>
            rw [standardize_error svc q t hq vs u hse hvs hinit hsr]
            exact ⟨fun s hs => by simp [noneResult] at hs, fun _ => ⟨rfl, rfl⟩⟩
          | ok rs =>
            cases rs with
            | nil =>
              rw [standardize_okNil svc q t hq vs hse hvs hinit hsr]
              exact ⟨fun s hs => by simp [noneResult] at hs, fun _ => ⟨rfl, rfl⟩⟩
            | cons b tl =>
              obtain ⟨hb0, hb1⟩ :=
                hvalid vs hvs q 5 (b :: tl) hsr b (List.mem_cons_self b tl)
              have hbranch :=
                standardize_semantic_branch svc q hq vs b tl hse hvs hinit hsr
              have hsim : 0 ≤ pyRound b.similarity 4 ∧ pyRound b.similarity 4 ≤ 1 :=
                ⟨pyRound_nonneg hb0 4, pyRound_le_one hb1 4⟩
              have hscore : pyRound (b.similarity * 100) 2
                  = pyRound (pyRound b.similarity 4 * 100) 2 :=
                (pyRound_pyRound4_mul100 b.similarity).symm
              rw [hbranch t]
              by_cases hbt : t ≤ b.similarity
              · rw [if_pos hbt]
                refine ⟨fun s hs => ?_, fun h => by simp at h⟩
                have hs4 : s = pyRound b.similarity 4 := by simpa using hs.symm
                subst hs4
                exact ⟨hsim.1, hsim.2, hscore⟩
              · rw [if_neg hbt]
                refine ⟨fun s hs => ?_, fun h => by simp at h⟩
                have hs4 : s = pyRound b.similarity 4 := by simpa using hs.symm
                subst hs4
                exact ⟨hsim.1, hsim.2, hscore⟩

/-- Witness for C8: `roeSvc` satisfies the collaborator contract; instantiate
the invariant at the semantic query. -/
theorem C8_witness :
    (∀ s, (standardize roeSvc "股本回报率".toList (65 / 100)).similarity = some s →
      0 ≤ s ∧ s ≤ 1 ∧
      (standardize roeSvc "股本回报率".toList (65 / 100)).score = pyRound (s * 100) 2) ∧
    ((standardize roeSvc "股本回报率".toList (65 / 100)).similarity = none →
      (standardize roeSvc "股本回报率".toList (65 / 100)).score = 0 ∧
      (standardize roeSvc "股本回报率".toList (65 / 100)).match_type = "none") :=
  C8_score_similarity roeSvc "股本回报率".toList (65 / 100)
    (fun vs hvs r k rs hrs x hx => by
      cases hvs
      cases hrs
      simp only [List.mem_singleton] at hx
      subst hx
      constructor
      · show (0 : ℚ) ≤ 72 / 100
        norm_num
      · show (72 : ℚ) / 100 ≤ 1
        norm_num)

/-! ### Structure of the identification pass -/

lemma identificationPass_nil (dict : List DictEntry) (vs : VectorService)
    (thr : ℚ) : identificationPass dict vs thr [] = [] := rfl

lemma identificationPass_cons (dict : List DictEntry) (vs : VectorService)
    (thr : ℚ) (c : Str) (cs : List Str) :
    identificationPass dict vs thr (c :: cs)
      = processCandidate dict vs thr c ++ identificationPass dict vs thr cs :=
  rfl

lemma identificationPass_append (dict : List DictEntry) (vs : VectorService)
    (thr : ℚ) (xs ys : List Str) :
    identificationPass dict vs thr (xs ++ ys)
      = identificationPass dict vs thr xs ++ identificationPass dict vs thr ys := by
  induction xs with
  | nil => rfl
  | cons c cs ih =>
    rw [List.cons_append, identificationPass_cons, ih,
      identificationPass_cons, List.append_assoc]

/-- A failing retrieval call for a candidate with no exact hit contributes
nothing (the `except` at `term_service.py:292-294`). -/
lemma processCandidate_error (dict : List DictEntry) (vs : VectorService)
    (thr : ℚ) (c : Str) (u : Unit)
    (hse : search_exact dict c = [])
    (hsr : vs.search_similar c 1 = Except.error u) :
    processCandidate dict vs thr c = [] := by
  unfold processCandidate
  rw [hse, hsr]

/-! ### C6 — retrieval failures are contained -/

/-- C6: a raised retrieval call is caught at the scope of the single call: in
`standardize` the query degrades to the `none` outcome; in the identification
pass the failing candidate contributes nothing and the pass continues over the
remaining candidates unchanged. -/
theorem C6_retrieval_failure_contained
    (svc : TermService) (q : Str) (t : ℚ) (vs : VectorService) (u : Unit)
    (hq : q ≠ [])
    (hse : search_exact svc.data_loader q = [])
    (hvs : svc.vector_service = some vs)
    (hinit : vs.is_initialized = true)
    (hsr : vs.search_similar q 5 = Except.error u)
    (dict : List DictEntry) (vs2 : VectorService) (thr : ℚ) (c : Str)
    (xs ys : List Str) (u2 : Unit)
    (hcse : search_exact dict c = [])
    (hcerr : vs2.search_similar c 1 = Except.error u2) :
    standardize svc q t = noneResult q "未找到匹配项" ∧
    (standardize svc q t).match_type = "none" ∧
    processCandidate dict vs2 thr c = [] ∧
    identificationPass dict vs2 thr (xs ++ c :: ys)
      = identificationPass dict vs2 thr xs ++ identificationPass dict vs2 thr ys := by
  have h1 := standardize_error svc q t hq vs u hse hvs hinit hsr
  have h2 := processCandidate_error dict vs2 thr c u2 hcse hcerr
  refine ⟨h1, by rw [h1]; rfl, h2, ?_⟩
  rw [identificationPass_append, identificationPass_cons, h2,
    List.nil_append]

/-- A vector service whose every retrieval call raises. -/
def failVS : VectorService :=
  { is_initialized := true, search_similar := fun _ _ => Except.error () }

/-- The service for the C6 witness: `riskDict` with the failing collaborator. -/
def failSvc : TermService :=
  { data_loader := riskDict, vector_service := some failVS }

/-- Witness for C6: a query and a candidate hitting the failing collaborator. -/
theorem C6_witness :
    standardize failSvc "hedge".toList (13 / 20)
      = noneResult "hedge".toList "未找到匹配项" ∧
    (standardize failSvc "hedge".toList (13 / 20)).match_type = "none" ∧
    processCandidate riskDict failVS (13 / 20) "hedge".toList = [] ∧
    identificationPass riskDict failVS (13 / 20)
        ("RISK".toList :: "hedge".toList :: ["Risk".toList])
      = identificationPass riskDict failVS (13 / 20) ["RISK".toList]
        ++ identificationPass riskDict failVS (13 / 20) ["Risk".toList] :=
  C6_retrieval_failure_contained failSvc "hedge".toList (13 / 20) failVS ()
    (by decide) (by decide) rfl rfl rfl riskDict failVS (13 / 20)
    "hedge".toList ["RISK".toList] ["Risk".toList] () (by decide) rfl

/-! ### C7 — `get_similar_terms` -/

/-- The Boolean filter of the `get_similar_terms` loop. -/
def simKeep (term : Str) (thr : ℚ) (r : SemResult) : Bool :=
  decide (lower r.term ≠ lower term ∧ thr ≤ r.similarity)

/-- The entry built from a kept result. -/
def simConv (r : SemResult) : SimTerm :=
  { term := r.term, similarity := pyRound r.similarity 4 }

/-- Every entry the loop adds passes the filter; in particular it is never the
reference term (case-insensitively). -/
lemma similarLoop_self_exclusion (term : Str) (thr : ℚ) (limit : ℕ) :
    ∀ (rs : List SemResult) (acc : List SimTerm),
      (∀ x ∈ acc, lower x.term ≠ lower term) →
      ∀ x ∈ similarLoop term thr limit rs acc, lower x.term ≠ lower term := by
  intro rs
  induction rs with
  | nil => intro acc hacc x hx; exact hacc x hx
  | cons r rs ih =>
    intro acc hacc x hx
    unfold similarLoop at hx
    by_cases hc : lower r.term ≠ lower term ∧ thr ≤ r.similarity
    · rw [if_pos hc] at hx
      dsimp only at hx
      have hacc2 : ∀ y ∈ acc ++ [simConv r], lower y.term ≠ lower term := by
        intro y hy
        rcases List.mem_append.mp hy with h | h
        · exact hacc y h
        · have : y = simConv r := by simpa using h
          subst this
          exact hc.1
      by_cases hl : limit ≤ acc.length + 1
      · rw [if_pos (by simpa using hl)] at hx
        exact hacc2 x hx
      · rw [if_neg (by simpa using hl)] at hx
        exact ih (acc ++ [simConv r]) hacc2 x hx
    · rw [if_neg hc] at hx
      exact ih acc hacc x hx

/-- Closed form of the loop for positive limits: it appends the converted,
filtered results, truncated at `limit` total entries, in retrieval order. -/
lemma similarLoop_eq (term : Str) (thr : ℚ) (limit : ℕ) :
    ∀ (rs : List SemResult) (acc : List SimTerm), acc.length < limit →
      similarLoop term thr limit rs acc
        = acc ++ ((rs.filter (simKeep term thr)).map simConv).take
            (limit - acc.length) := by
  intro rs
  induction rs with
  | nil =>
    intro acc hacc
    show acc = acc ++ ([].take (limit - acc.length))
    rw [List.take_nil, List.append_nil]
  | cons r rs ih =>
    intro acc hacc
    unfold similarLoop
    by_cases hc : lower r.term ≠ lower term ∧ thr ≤ r.similarity
    · rw [if_pos hc]
      dsimp only
      rw [List.filter_cons_of_pos (by simpa [simKeep] using hc)]
      by_cases hl : limit ≤ acc.length + 1
      · rw [if_pos (by simpa using hl)]
        have h1 : limit - acc.length = 1 := by omega
        rw [List.map_cons, h1]
        rw [List.take_succ_cons, List.take_zero]
        rfl
      · rw [if_neg (by simpa using hl)]
        have h2 : acc.length + 1 < limit := by omega
        have hconv : ({ term := r.term, similarity := pyRound r.similarity 4 } :
            SimTerm) = simConv r := rfl
        rw [hconv]
        have := ih (acc ++ [simConv r]) (by simpa using h2)
        rw [this]
        have h3 : limit - acc.length = (limit - (acc.length + 1)) + 1 := by omega
        rw [List.map_cons, h3, List.take_succ_cons]
        simp [List.append_assoc]
    · rw [if_neg hc]
      rw [List.filter_cons_of_neg (by simpa [simKeep] using hc)]
      exact ih acc hacc

/-- A collaborator that always returns one perfect hit. -/
def oneHitVS : VectorService :=
  { is_initialized := true,
    search_similar := fun _ _ =>
      Except.ok [{ term := "X".toList, similarity := 1 }] }

/-- The service for the C7 counterexample. -/
def oneHitSvc : TermService :=
  { data_loader := [], vector_service := some oneHitVS }

/-- C7 (as frozen) is false at `limit = 0`: the loop tests the break only
after appending (`term_service.py:184`), so with `limit = 0` one qualifying
result is still returned — more than `limit` entries. -/
theorem C7_counterexample :
    (get_similar_terms oneHitSvc "a".toList 0 0).length = 1 ∧
    ¬ ((get_similar_terms oneHitSvc "a".toList 0 0).length ≤ 0) := by
  with_unfolding_all decide

/-- C7 amended: empty list when the collaborator is absent or uninitialized;
on a successful retrieval of `limit + 5` results and for `limit ≥ 1` the
outcome is exactly the filtered (self-excluded, above-threshold) results in
retrieval order truncated to `limit` entries; self-exclusion holds for every
limit (including 0) and on every path. -/
theorem C7_similar_terms (svc : TermService) (term : Str) (thr : ℚ)
    (limit : ℕ) :
    (svc.vector_service = none → get_similar_terms svc term limit thr = []) ∧
    (∀ vs, svc.vector_service = some vs → vs.is_initialized = false →
      get_similar_terms svc term limit thr = []) ∧
    (∀ vs rs, svc.vector_service = some vs → vs.is_initialized = true →
      vs.search_similar term (limit + 5) = Except.ok rs → 1 ≤ limit →
      get_similar_terms svc term limit thr
        = ((rs.filter (simKeep term thr)).map simConv).take limit ∧
      (get_similar_terms svc term limit thr).length ≤ limit) ∧
    (∀ x ∈ get_similar_terms svc term limit thr, lower x.term ≠ lower term) := by
  refine ⟨?_, ?_, ?_, ?_⟩
  · intro hvs
    unfold get_similar_terms
    rw [hvs]
  · intro vs hvs hinit
    unfold get_similar_terms
    simp only [hvs, hinit, Bool.false_eq_true, if_false]
  · intro vs rs hvs hinit hsr hlim
    have hloop := similarLoop_eq term thr limit rs [] (by simpa using hlim)
    have hval : get_similar_terms svc term limit thr
        = ((rs.filter (simKeep term thr)).map simConv).take limit := by
      unfold get_similar_terms
      simp only [hvs, hinit, hsr, if_true]
      rw [hloop]
      simp
    refine ⟨hval, ?_⟩
    rw [hval]
    exact le_trans (List.length_take_le _ _) (le_refl _)
  · intro x hx
    unfold get_similar_terms at hx
    cases hvs : svc.vector_service with
    | none => rw [hvs] at hx; exact absurd hx (List.not_mem_nil x)
    | some vs =>
      rw [hvs] at hx
      cases hinit : vs.is_initialized with
      | false =>
        simp only [hinit, Bool.false_eq_true, if_false] at hx
        exact absurd hx (List.not_mem_nil x)
      | true =>
        simp only [hinit, if_true] at hx
        cases hsr : vs.search_similar term (limit + 5) with
        | error u =>
          rw [hsr] at hx
          exact absurd hx (List.not_mem_nil x)
        | ok rs =>
          rw [hsr] at hx
          exact similarLoop_self_exclusion term thr limit rs []
            (by intro y hy; exact absurd hy (List.not_mem_nil y)) x hx

/-- A collaborator returning three results: one valid, one equal to the
reference term up to case, one below threshold. -/
def threeVS : VectorService :=
  { is_initialized := true,
    search_similar := fun _ _ => Except.ok
      [{ term := "Beta".toList, similarity := 9 / 10 },
       { term := "TERM".toList, similarity := 1 },
       { term := "Gamma".toList, similarity := 1 / 10 }] }

/-- The service for the C7 witness. -/
def threeSvc : TermService :=
  { data_loader := [], vector_service := some threeVS }

/-- Witness for C7: `limit = 1`, threshold 0.5; only `Beta` survives the
self-exclusion and threshold filters. -/
theorem C7_witness :
    get_similar_terms threeSvc "term".toList 1 (1 / 2)
      = ((([{ term := "Beta".toList, similarity := (9 : ℚ) / 10 },
            { term := "TERM".toList, similarity := 1 },
            { term := "Gamma".toList, similarity := 1 / 10 }] :
          List SemResult).filter (simKeep "term".toList (1 / 2))).map simConv).take 1 ∧
    (get_similar_terms threeSvc "term".toList 1 (1 / 2)).length ≤ 1 :=
  ((C7_similar_terms threeSvc "term".toList (1 / 2) 1).2.2.1 threeVS
    [{ term := "Beta".toList, similarity := 9 / 10 },
     { term := "TERM".toList, similarity := 1 },
     { term := "Gamma".toList, similarity := 1 / 10 }]
    rfl rfl rfl (by decide))

/-! ### Structure of candidate extraction -/

/-- Reference form of the global de-duplication: one pass over a single list,
carrying the set of lowercase keys already seen; returns the kept spans and the
final seen set. -/
def dedupAux : List Str → List Str → List Str × List Str
  | seen, [] => ([], seen)
  | seen, w :: ws =>
    if lower w ∈ seen then dedupAux seen ws
    else
      let r := dedupAux (lower w :: seen) ws
      (w :: r.1, r.2)

lemma dedupAux_nil (seen : List Str) : dedupAux seen [] = ([], seen) := rfl

lemma dedupAux_cons_mem {w : Str} {seen : List Str} (ws : List Str)
    (hseen : lower w ∈ seen) :
    dedupAux seen (w :: ws) = dedupAux seen ws := by
  show (if lower w ∈ seen then dedupAux seen ws
        else (w :: (dedupAux (lower w :: seen) ws).1,
              (dedupAux (lower w :: seen) ws).2))
      = dedupAux seen ws
  rw [if_pos hseen]

lemma dedupAux_cons_new {w : Str} {seen : List Str} (ws : List Str)
    (hseen : lower w ∉ seen) :
    dedupAux seen (w :: ws)
      = (w :: (dedupAux (lower w :: seen) ws).1,
         (dedupAux (lower w :: seen) ws).2) := by
  show (if lower w ∈ seen then dedupAux seen ws
        else (w :: (dedupAux (lower w :: seen) ws).1,
              (dedupAux (lower w :: seen) ws).2))
      = _
  rw [if_neg hseen]

lemma addCands_nil (guard : Str → Bool) (st : List Str × List Str) :
    addCands guard st [] = st := rfl

lemma addCands_cons (guard : Str → Bool) (st : List Str × List Str) (w : Str)
    (ws : List Str) :
    addCands guard st (w :: ws)
      = addCands guard
          (if guard w ∧ lower w ∉ st.2 then (st.1 ++ [w], lower w :: st.2)
           else st) ws := rfl

/-- One strategy loop equals appending the one-pass de-duplication of the
guard-filtered spans, with the seen set threaded through. -/
lemma addCands_eq (guard : Str → Bool) :
    ∀ (items : List Str) (acc seen : List Str),
      addCands guard (acc, seen) items
        = (acc ++ (dedupAux seen (items.filter guard)).1,
           (dedupAux seen (items.filter guard)).2) := by
  intro items
  induction items with
  | nil => intro acc seen; simp [addCands_nil, dedupAux]
  | cons w ws ih =>
    intro acc seen
    rw [addCands_cons]
    by_cases hg : guard w = true
    · rw [List.filter_cons_of_pos hg]
      by_cases hseen : lower w ∈ seen
      · rw [if_neg (by simp [hseen])]
        rw [dedupAux_cons_mem _ hseen]
        exact ih acc seen
      · rw [if_pos ⟨hg, hseen⟩]
        rw [dedupAux_cons_new _ hseen]
        dsimp only
        rw [ih (acc ++ [w]) (lower w :: seen)]
        rw [List.append_assoc]
        rfl
    · have hg2 : guard w = false := by
        cases hguard : guard w with
        | true => exact absurd hguard hg
        | false => rfl
      rw [List.filter_cons_of_neg (by simp [hg2])]
      rw [if_neg (by simp [hg2])]
      exact ih acc seen

/-- The kept spans are a sublist of the scanned spans: insertion order is
preserved and nothing new is invented. -/
lemma dedupAux_sub : ∀ (l seen : List Str), List.Sublist (dedupAux seen l).1 l := by
  intro l
  induction l with
  | nil => intro seen; exact List.Sublist.refl _
  | cons w ws ih =>
    intro seen
    by_cases hseen : lower w ∈ seen
    · rw [dedupAux_cons_mem _ hseen]
      exact List.Sublist.cons w (ih seen)
    · rw [dedupAux_cons_new _ hseen]
      exact List.Sublist.cons₂ w (ih (lower w :: seen))

/-- The lowercase keys of the kept spans are pairwise distinct and disjoint
from the incoming seen set. -/
lemma dedupAux_keys : ∀ (l seen : List Str),
    ((dedupAux seen l).1.map lower).Nodup ∧
    (∀ k ∈ (dedupAux seen l).1.map lower, k ∉ seen) := by
  intro l
  induction l with
  | nil =>
    intro seen
    rw [dedupAux_nil]
    exact ⟨List.nodup_nil, by intro k hk; simp at hk⟩
  | cons w ws ih =>
    intro seen
    by_cases hseen : lower w ∈ seen
    · rw [dedupAux_cons_mem _ hseen]
      exact ih seen
    · rw [dedupAux_cons_new _ hseen]
      obtain ⟨ihn, ihs⟩ := ih (lower w :: seen)
      dsimp only
      constructor
      · rw [List.map_cons, List.nodup_cons]
        refine ⟨?_, ihn⟩
        intro hmem
        exact absurd (List.mem_cons_self (lower w) seen) (ihs (lower w) hmem)
      · intro k hk
        rw [List.map_cons, List.mem_cons] at hk
        rcases hk with hk | hk
        · subst hk; exact hseen
        · intro hks
          exact absurd (List.mem_cons_of_mem (lower w) hks) (ihs k hk)

/-- First occurrence wins: an element whose lowercase key is new and does not
occur earlier in the list is kept. -/
lemma dedupAux_first_wins : ∀ (l1 : List Str) (seen l2 : List Str) (w : Str),
    lower w ∉ seen → (∀ x ∈ l1, lower x ≠ lower w) →
    w ∈ (dedupAux seen (l1 ++ w :: l2)).1 := by
  intro l1
  induction l1 with
  | nil =>
    intro seen l2 w hw _
    rw [List.nil_append]
    rw [dedupAux_cons_new _ hw]
    exact List.mem_cons_self w _
  | cons x xs ih =>
    intro seen l2 w hw hfirst
    rw [List.cons_append]
    by_cases hx : lower x ∈ seen
    · rw [dedupAux_cons_mem _ hx]
      exact ih seen l2 w hw (fun y hy => hfirst y (List.mem_cons_of_mem x hy))
    · rw [dedupAux_cons_new _ hx]
      dsimp only
      refine List.mem_cons_of_mem x ?_
      refine ih (lower x :: seen) l2 w ?_
        (fun y hy => hfirst y (List.mem_cons_of_mem x hy))
      intro hmem
      rcases List.mem_cons.mp hmem with h | h
      · exact hfirst x (List.mem_cons_self x xs) h.symm
      · exact hw h

/-- Composition of one-pass de-duplications over concatenated lists. -/
lemma dedupAux_append : ∀ (l1 : List Str) (seen l2 : List Str),
    dedupAux seen (l1 ++ l2)
      = ((dedupAux seen l1).1 ++ (dedupAux (dedupAux seen l1).2 l2).1,
         (dedupAux (dedupAux seen l1).2 l2).2) := by
  intro l1
  induction l1 with
  | nil => intro seen l2; simp [dedupAux]
  | cons w ws ih =>
    intro seen l2
    rw [List.cons_append]
    by_cases hseen : lower w ∈ seen
    · rw [dedupAux_cons_mem _ hseen, dedupAux_cons_mem _ hseen]
      exact ih seen l2
    · rw [dedupAux_cons_new _ hseen, dedupAux_cons_new _ hseen]
      dsimp only
      rw [ih (lower w :: seen) l2]
      dsimp only
      rw [List.cons_append]

/-- The concatenation of the four strategy scans, with the minimum-length
guard applied to the single-token scan. -/
def allSpans (text : Str) (m : ℕ) : List Str :=
  (findTokens none text).filter (fun w => decide (m ≤ w.length))
    ++ findBigrams none text ++ findTrigrams none text ++ findCJK text

/-- The four strategy loops of `extractCandidates` compose into one
de-duplication pass over `allSpans`. -/
lemma extractCandidates_eq (text : Str) (m : ℕ) :
    extractCandidates text m = (dedupAux [] (allSpans text m)).1 := by
  unfold extractCandidates allSpans
  dsimp only
  rw [addCands_eq, addCands_eq, addCands_eq, addCands_eq]
  rw [List.filter_true, List.filter_true, List.filter_true]
  rw [dedupAux_append, dedupAux_append, dedupAux_append]
  dsimp only
  simp [List.append_assoc]

/-! ### C4 — candidate extraction -/

/-- C4: extraction applies the four strategies in order (single tokens guarded
by the minimum length, bigrams, trigrams, CJK runs) and de-duplicates globally
by lowercase key: the result is one de-duplication pass over the concatenated
strategy scans, its lowercase keys are pairwise distinct, it is a sublist of
the scanned spans (insertion order preserved), the first occurrence of each
new key is kept, and for the text "Risk Risk" the candidates are exactly
`["Risk", "Risk Risk"]`, with exactly one candidate keyed `"risk"`. -/
theorem C4_extraction (text : Str) (m : ℕ) :
    extractCandidates text m = (dedupAux [] (allSpans text m)).1 ∧
    ((extractCandidates text m).map lower).Nodup ∧
    List.Sublist (extractCandidates text m) (allSpans text m) ∧
    (∀ (l1 l2 : List Str) (w : Str), allSpans text m = l1 ++ w :: l2 →
      (∀ x ∈ l1, lower x ≠ lower w) → w ∈ extractCandidates text m) ∧
    extractCandidates "Risk Risk".toList 2
      = ["Risk".toList, "Risk Risk".toList] ∧
    ((extractCandidates "Risk Risk".toList 2).filter
      (fun w => decide (lower w = "risk".toList))).length = 1 := by
  refine ⟨extractCandidates_eq text m, ?_, ?_, ?_, by decide, by decide⟩
  · rw [extractCandidates_eq text m]
    exact (dedupAux_keys (allSpans text m) []).1
  · rw [extractCandidates_eq text m]
    exact dedupAux_sub (allSpans text m) []
  · intro l1 l2 w hsplit hfirst
    rw [extractCandidates_eq text m, hsplit]
    exact dedupAux_first_wins l1 [] l2 w (by intro h; simp at h) hfirst

/-- Witness for C4: the first-wins clause instantiated on the concrete
"Risk Risk" scan, plus the concrete candidate list. -/
theorem C4_witness :
    "Risk".toList ∈ extractCandidates "Risk Risk".toList 2 ∧
    extractCandidates "Risk Risk".toList 2
      = ["Risk".toList, "Risk Risk".toList] :=
  ⟨(C4_extraction "Risk Risk".toList 2).2.2.2.1 []
      ["Risk".toList, "Risk Risk".toList] "Risk".toList (by decide) (by decide),
   (C4_extraction "Risk Risk".toList 2).2.2.2.2.1⟩

/-! ### Structure of the replacement pass -/

/-- Closed form of the insertion step: the new item passes over exactly the
strictly longer originals and lands in front of the first original of equal or
smaller length — hence in front of every tied item, which keeps earlier list
positions (extraction order) in front among ties. -/
lemma insertByLen_eq (x : IdTerm) :
    ∀ l : List IdTerm,
      insertByLen x l
        = l.takeWhile (fun y => decide (x.original.length < y.original.length))
          ++ x :: l.dropWhile (fun y => decide (x.original.length < y.original.length)) := by
  intro l
  induction l with
  | nil => rfl
  | cons y ys ih =>
    show (if x.original.length < y.original.length then y :: insertByLen x ys
          else x :: y :: ys) = _
    by_cases h : x.original.length < y.original.length
    · rw [if_pos h]
      rw [List.takeWhile_cons_of_pos (by simpa using h),
        List.dropWhile_cons_of_pos (by simpa using h)]
      rw [ih, List.cons_append]
    · rw [if_neg h]
      rw [List.takeWhile_cons_of_neg (by simpa using h),
        List.dropWhile_cons_of_neg (by simpa using h)]
      rfl

/-- The sort is a permutation of its input. -/
lemma sortByLenDesc_perm : ∀ l : List IdTerm, (sortByLenDesc l).Perm l := by
  intro l
  induction l with
  | nil => exact List.Perm.refl []
  | cons x xs ih =>
    show (insertByLen x (sortByLenDesc xs)).Perm (x :: xs)
    rw [insertByLen_eq]
    refine List.Perm.trans List.perm_middle ?_
    rw [List.takeWhile_append_dropWhile]
    exact List.Perm.cons x ih

/-- The sort is descending in `length(original)`. -/
lemma sortByLenDesc_sorted :
    ∀ l : List IdTerm,
      (sortByLenDesc l).Pairwise
        (fun a b => b.original.length ≤ a.original.length) := by
  intro l
  induction l with
  | nil => exact List.Pairwise.nil
  | cons x xs ih =>
    show (insertByLen x (sortByLenDesc xs)).Pairwise _
    rw [insertByLen_eq]
    set s := sortByLenDesc xs with hs
    have hpair : (s.takeWhile (fun y => decide (x.original.length < y.original.length))
        ++ s.dropWhile (fun y => decide (x.original.length < y.original.length))).Pairwise
        (fun a b => b.original.length ≤ a.original.length) := by
      rw [List.takeWhile_append_dropWhile]; exact ih
    rw [List.pairwise_append] at hpair
    obtain ⟨htw, hdw, hcross⟩ := hpair
    rw [List.pairwise_append]
    refine ⟨htw, ?_, ?_⟩
    · rw [List.pairwise_cons]
      refine ⟨?_, hdw⟩
      -- x dominates every element of the dropWhile part
      intro b hb
      -- the head of dropWhile fails the predicate; later elements are below it
      cases hdrop : s.dropWhile (fun y => decide (x.original.length < y.original.length)) with
      | nil => rw [hdrop] at hb; exact absurd hb (List.not_mem_nil b)
      | cons d ds =>
        have hd : ¬ (x.original.length < d.original.length) := by
          have := List.head?_dropWhile_not
            (fun y => decide (x.original.length < y.original.length)) s
          rw [hdrop] at this
          simpa using this
        rw [hdrop] at hb
        rcases List.mem_cons.mp hb with hb | hb
        · subst hb; omega
        · have hdb : b.original.length ≤ d.original.length := by
            rw [hdrop] at hdw
            exact (List.pairwise_cons.mp hdw).1 b hb
          omega
    · intro a ha b hb
      rcases List.mem_cons.mp hb with hb | hb
      · subst hb
        have := List.mem_takeWhile_imp ha
        simp only [decide_eq_true_eq] at this
        omega
      · exact hcross a ha b hb

/-- Stability: for every length value, the sorted list keeps the tied items in
their original relative order. -/
lemma sortByLenDesc_stable :
    ∀ (l : List IdTerm) (n : ℕ),
      (sortByLenDesc l).filter (fun y => decide (y.original.length = n))
        = l.filter (fun y => decide (y.original.length = n)) := by
  intro l
  induction l with
  | nil => intro n; rfl
  | cons x xs ih =>
    intro n
    have hsplitf :
        List.filter (fun y => decide (y.original.length = n))
            ((sortByLenDesc xs).takeWhile
              (fun y => decide (x.original.length < y.original.length)))
          ++ List.filter (fun y => decide (y.original.length = n))
            ((sortByLenDesc xs).dropWhile
              (fun y => decide (x.original.length < y.original.length)))
          = xs.filter (fun y => decide (y.original.length = n)) := by
      rw [← List.filter_append, List.takeWhile_append_dropWhile]
      exact ih n
    show (insertByLen x (sortByLenDesc xs)).filter _ = _
    rw [insertByLen_eq, List.filter_append, List.filter_cons, List.filter_cons]
    by_cases hx : x.original.length = n
    · rw [if_pos (by simpa using hx), if_pos (by simpa using hx)]
      have htw : List.filter (fun y => decide (y.original.length = n))
          ((sortByLenDesc xs).takeWhile
            (fun y => decide (x.original.length < y.original.length))) = [] := by
        rw [List.filter_eq_nil_iff]
        intro a ha
        have h2 := List.mem_takeWhile_imp ha
        simp only [decide_eq_true_eq] at h2 ⊢
        omega
      rw [htw, List.nil_append] at hsplitf
      rw [htw, List.nil_append, hsplitf]
    · rw [if_neg (by simpa using hx), if_neg (by simpa using hx)]
      exact hsplitf

/-- Every record accumulated by the replacement loop has a positive count:
a record is appended only under the `count > 0` test. -/
lemma replaceStep_count : ∀ (S : List IdTerm) (st : Str × List ReplRecord),
    (∀ r ∈ st.2, 0 < r.count) →
    ∀ r ∈ (S.foldl replaceStep st).2, 0 < r.count := by
  intro S
  induction S with
  | nil => intro st h r hr; exact h r hr
  | cons item S ih =>
    intro st h r hr
    rw [List.foldl_cons] at hr
    refine ih (replaceStep st item) ?_ r hr
    intro r2 hr2
    unfold replaceStep at hr2
    by_cases hc : 0 < (subScan item.original item.standard none st.1).1
    · rw [if_pos hc] at hr2
      dsimp only at hr2
      rcases List.mem_append.mp hr2 with h2 | h2
      · exact h r2 h2
      · rw [List.mem_singleton] at h2
        subst h2
        exact hc
    · rw [if_neg hc] at hr2
      exact h r2 hr2

/-- Every record accumulated by the replacement loop is for the original of
one of the processed identified terms. -/
lemma replaceStep_orig : ∀ (S : List IdTerm) (st : Str × List ReplRecord),
    ∀ r ∈ (S.foldl replaceStep st).2,
      r.original ∈ S.map (fun i => i.original) ∨ r ∈ st.2 := by
  intro S
  induction S with
  | nil => intro st r hr; exact Or.inr hr
  | cons item S ih =>
    intro st r hr
    rw [List.foldl_cons] at hr
    rcases ih (replaceStep st item) r hr with h | h
    · exact Or.inl (List.mem_cons_of_mem _ h)
    · unfold replaceStep at h
      by_cases hc : 0 < (subScan item.original item.standard none st.1).1
      · rw [if_pos hc] at h
        dsimp only at h
        rcases List.mem_append.mp h with h2 | h2
        · exact Or.inr h2
        · rw [List.mem_singleton] at h2
          subst h2
          exact Or.inl (by simp)
      · rw [if_neg hc] at h
        exact Or.inr h

/-- Unfolding of `identify_and_replace_terms` on the normal path. -/
lemma identify_unfold (svc : TermService) (vs : VectorService) (text : Str)
    (thr : ℚ) (m : ℕ) (htext : text ≠ [])
    (hvs : svc.vector_service = some vs) (hinit : vs.is_initialized = true) :
    identify_and_replace_terms svc text thr m
      = { original_text := text,
          processed_text := (replacementPass (sortByLenDesc
            (identificationPass svc.data_loader vs thr
              (extractCandidates text m))) text).1,
          identified_terms := identificationPass svc.data_loader vs thr
            (extractCandidates text m),
          replacements := (replacementPass (sortByLenDesc
            (identificationPass svc.data_loader vs thr
              (extractCandidates text m))) text).2,
          total_replacements := some ((((replacementPass (sortByLenDesc
            (identificationPass svc.data_loader vs thr
              (extractCandidates text m))) text).2).map
                (fun r => r.count)).sum),
          message := "成功识别 "
            ++ toString (identificationPass svc.data_loader vs thr
                 (extractCandidates text m)).length
            ++ " 个术语，执行 "
            ++ toString ((((replacementPass (sortByLenDesc
                 (identificationPass svc.data_loader vs thr
                   (extractCandidates text m))) text).2).map
                     (fun r => r.count)).sum)
            ++ " 次替换" } := by
  unfold identify_and_replace_terms
  simp only [hvs]
  rw [if_neg (by simp [htext, hinit])]

/-! ### C3 — the replacement pass -/

/-- A collaborator for the spec's length-priority scenario: `Credit Risk` maps
to `CreditRiskStd` and `Risk` to `RiskStd`, everything else to no result. -/
def lpVS : VectorService :=
  { is_initialized := true,
    search_similar := fun q _ =>
      if q = "Credit Risk".toList then
        Except.ok [{ term := "CreditRiskStd".toList, similarity := 9 / 10 }]
      else if q = "Risk".toList then
        Except.ok [{ term := "RiskStd".toList, similarity := 9 / 10 }]
      else Except.ok [] }

/-- The service for the C3 witness. -/
def lpSvc : TermService := { data_loader := [], vector_service := some lpVS }

/-- C3: on the normal path, the result's `identified_terms` is the full
pre-replacement detection list; the replacement output is the fold of the
whole-word case-insensitive substitution step over that list sorted by
descending original length (a sort that is a permutation, descending, and
stable on ties); a record appears only with a positive actual count; and
`total_replacements` is the sum of the record counts.  The final conjunct
checks the cumulative length-priority behaviour end to end on the spec's
scenario: `Credit Risk management` becomes `CreditRiskStd management` with one
single replacement (the shorter `Risk` no longer matches whole-word after the
longer phrase was substituted). -/
theorem C3_replacement_pass (svc : TermService) (vs : VectorService)
    (text : Str) (thr : ℚ) (m : ℕ)
    (htext : text ≠ []) (hvs : svc.vector_service = some vs)
    (hinit : vs.is_initialized = true) :
    (identify_and_replace_terms svc text thr m).identified_terms
      = identificationPass svc.data_loader vs thr (extractCandidates text m) ∧
    ((identify_and_replace_terms svc text thr m).processed_text,
        (identify_and_replace_terms svc text thr m).replacements)
      = replacementPass (sortByLenDesc
          ((identify_and_replace_terms svc text thr m).identified_terms)) text ∧
    (sortByLenDesc ((identify_and_replace_terms svc text thr m).identified_terms)).Perm
      ((identify_and_replace_terms svc text thr m).identified_terms) ∧
    (sortByLenDesc ((identify_and_replace_terms svc text thr m).identified_terms)).Pairwise
      (fun a b => b.original.length ≤ a.original.length) ∧
    (∀ n : ℕ, (sortByLenDesc
        ((identify_and_replace_terms svc text thr m).identified_terms)).filter
          (fun y => decide (y.original.length = n))
      = ((identify_and_replace_terms svc text thr m).identified_terms).filter
          (fun y => decide (y.original.length = n))) ∧
    (∀ r ∈ (identify_and_replace_terms svc text thr m).replacements, 0 < r.count) ∧
    (identify_and_replace_terms svc text thr m).total_replacements
      = some ((((identify_and_replace_terms svc text thr m).replacements).map
          (fun r => r.count)).sum) ∧
    (identify_and_replace_terms lpSvc "Credit Risk management".toList (3 / 5) 2).processed_text
      = "CreditRiskStd management".toList ∧
    (identify_and_replace_terms lpSvc "Credit Risk management".toList (3 / 5) 2).replacements.map
        (fun r => (r.original, r.count))
      = [("Credit Risk".toList, 1)] := by
  have hu := identify_unfold svc vs text thr m htext hvs hinit
  rw [hu]
  refine ⟨rfl, rfl, sortByLenDesc_perm _, sortByLenDesc_sorted _,
    fun n => sortByLenDesc_stable _ n, ?_, rfl, ?_, ?_⟩
  · intro r hr
    exact replaceStep_count (sortByLenDesc (identificationPass svc.data_loader
      vs thr (extractCandidates text m))) (text, [])
      (by intro r2 hr2; exact absurd hr2 (List.not_mem_nil r2)) r hr
  · with_unfolding_all decide
  · with_unfolding_all decide

/-- Witness for C3: the length-priority scenario instantiated. -/
theorem C3_witness :
    (∀ r ∈ (identify_and_replace_terms lpSvc "Credit Risk management".toList
        (3 / 5) 2).replacements, 0 < r.count) ∧
    (identify_and_replace_terms lpSvc "Credit Risk management".toList
        (3 / 5) 2).total_replacements
      = some ((((identify_and_replace_terms lpSvc "Credit Risk management".toList
          (3 / 5) 2).replacements).map (fun r => r.count)).sum) :=
  ⟨(C3_replacement_pass lpSvc lpVS "Credit Risk management".toList (3 / 5) 2
      (by decide) rfl rfl).2.2.2.2.2.1,
   (C3_replacement_pass lpSvc lpVS "Credit Risk management".toList (3 / 5) 2
      (by decide) rfl rfl).2.2.2.2.2.2.1⟩

/-! ### C9 — empty input text -/

/-- C9: for empty text, `identify_and_replace_terms` raises nothing and
returns the no-op result — the input text unchanged and empty lists — but the
early return at `term_service.py:210-216` builds its dict WITHOUT the
`total_replacements` key (modelled `none`), where the claim (and §3 of the
spec) requires the field to be present and 0. -/
theorem C9_empty_text_no_total (svc : TermService) (t : ℚ) (m : ℕ) :
    identify_and_replace_terms svc [] t m = noopResult [] ∧
    (identify_and_replace_terms svc [] t m).original_text = [] ∧
    (identify_and_replace_terms svc [] t m).processed_text = [] ∧
    (identify_and_replace_terms svc [] t m).identified_terms = [] ∧
    (identify_and_replace_terms svc [] t m).replacements = [] ∧
    (identify_and_replace_terms svc [] t m).total_replacements = none := by
  have h : identify_and_replace_terms svc [] t m = noopResult [] := by
    unfold identify_and_replace_terms
    cases hvs : svc.vector_service with
    | none => rfl
    | some vs => simp
  rw [h]
  exact ⟨rfl, rfl, rfl, rfl, rfl, rfl⟩

/-! ### Branch characterizations of one candidate's identification -/

lemma processCandidate_exact (dict : List DictEntry) (vs : VectorService)
    (thr : ℚ) (c : Str) (e : DictEntry) (es : List DictEntry)
    (hse : search_exact dict c = e :: es) :
    processCandidate dict vs thr c
      = if c ≠ e.term then
          [{ original := c, standard := e.term, similarity := 1,
             match_type := "exact" }]
        else [] := by
  unfold processCandidate
  rw [hse]

lemma processCandidate_noExact (dict : List DictEntry) (vs : VectorService)
    (thr : ℚ) (c : Str) (hse : search_exact dict c = []) :
    processCandidate dict vs thr c
      = match vs.search_similar c 1 with
        | Except.error _ => []
        | Except.ok [] => []
        | Except.ok (b :: _) =>
          if thr ≤ b.similarity ∧ lower c ≠ lower b.term then
            [{ original := c, standard := b.term, similarity := b.similarity,
               match_type := "semantic" }]
          else [] := by
  unfold processCandidate
  rw [hse]

lemma processCandidate_semantic (dict : List DictEntry) (vs : VectorService)
    (thr : ℚ) (c : Str) (b : SemResult) (tl : List SemResult)
    (hse : search_exact dict c = [])
    (hsr : vs.search_similar c 1 = Except.ok (b :: tl)) :
    processCandidate dict vs thr c
      = if thr ≤ b.similarity ∧ lower c ≠ lower b.term then
          [{ original := c, standard := b.term, similarity := b.similarity,
             match_type := "semantic" }]
        else [] := by
  rw [processCandidate_noExact dict vs thr c hse, hsr]

lemma processCandidate_okNil (dict : List DictEntry) (vs : VectorService)
    (thr : ℚ) (c : Str) (hse : search_exact dict c = [])
    (hsr : vs.search_similar c 1 = Except.ok []) :
    processCandidate dict vs thr c = [] := by
  rw [processCandidate_noExact dict vs thr c hse, hsr]

/-- Every emitted identified term carries the candidate itself as its
original. -/
lemma processCandidate_original (dict : List DictEntry) (vs : VectorService)
    (thr : ℚ) (c : Str) :
    ∀ it ∈ processCandidate dict vs thr c, it.original = c := by
  intro it hit
  cases hse : search_exact dict c with
  | cons e es =>
    rw [processCandidate_exact dict vs thr c e es hse] at hit
    by_cases hne : c ≠ e.term
    · rw [if_pos hne, List.mem_singleton] at hit
      rw [hit]
    · rw [if_neg hne] at hit
      exact absurd hit (List.not_mem_nil it)
  | nil =>
    cases hsr : vs.search_similar c 1 with
    | error u =>
      rw [processCandidate_noExact dict vs thr c hse, hsr] at hit
      exact absurd hit (List.not_mem_nil it)
    | ok rs =>
      cases rs with
      | nil =>
        rw [processCandidate_okNil dict vs thr c hse hsr] at hit
        exact absurd hit (List.not_mem_nil it)
      | cons b tl =>
        rw [processCandidate_semantic dict vs thr c b tl hse hsr] at hit
        by_cases hcond : thr ≤ b.similarity ∧ lower c ≠ lower b.term
        · rw [if_pos hcond, List.mem_singleton] at hit
          rw [hit]
        · rw [if_neg hcond] at hit
          exact absurd hit (List.not_mem_nil it)

/-- Every identified term of the pass comes from processing one of the
candidates. -/
lemma identificationPass_mem (dict : List DictEntry) (vs : VectorService)
    (thr : ℚ) : ∀ (cands : List Str) (it : IdTerm),
    it ∈ identificationPass dict vs thr cands →
    ∃ c ∈ cands, it ∈ processCandidate dict vs thr c := by
  intro cands
  induction cands with
  | nil => intro it hit; exact absurd hit (List.not_mem_nil it)
  | cons c cs ih =>
    intro it hit
    rw [identificationPass_cons] at hit
    rcases List.mem_append.mp hit with h | h
    · exact ⟨c, List.mem_cons_self c cs, h⟩
    · obtain ⟨x, hx, hx2⟩ := ih it h
      exact ⟨x, List.mem_cons_of_mem c hx, hx2⟩

/-! ### C5 — the identification pass -/

/-- A one-entry dictionary with a mixed-case canonical term. -/
def riskDict2 : List DictEntry := [{ term := "Risk".toList, label := [] }]

/-- A collaborator answering every query with a qualifying, different term. -/
def hedgeVS : VectorService :=
  { is_initialized := true,
    search_similar := fun _ _ =>
      Except.ok [{ term := "Hedge".toList, similarity := 99 / 100 }] }

/-- The service for the C5 counterexample. -/
def svcC5 : TermService :=
  { data_loader := riskDict2, vector_service := some hedgeVS }

/-- C5 (as frozen) is false: for the candidate `Risk`, the exact lookup hits
with an identical standard; the claim's "otherwise" branch would query
semantic retrieval, whose single result qualifies (similarity 0.99 above the
0.6 threshold, term differing case-insensitively), and the claim then demands
an IdentifiedTerm — but the code `continue`s on ANY exact hit
(`term_service.py:275`), so no IdentifiedTerm is emitted at all. -/
theorem C5_counterexample :
    search_exact riskDict2 "Risk".toList
      = [{ term := "Risk".toList, label := [] }] ∧
    hedgeVS.search_similar "Risk".toList 1
      = Except.ok [{ term := "Hedge".toList, similarity := 99 / 100 }] ∧
    ((3 : ℚ) / 5 ≤ 99 / 100 ∧ lower "Risk".toList ≠ lower "Hedge".toList) ∧
    extractCandidates "Risk".toList 2 = ["Risk".toList] ∧
    (identify_and_replace_terms svcC5 "Risk".toList (3 / 5) 2).identified_terms
      = [] := by
  refine ⟨by with_unfolding_all decide, rfl, by with_unfolding_all decide,
    by decide, by with_unfolding_all decide⟩

/-- C5 amended: the result's identification list is the pass over the
extracted candidates in extraction order; a candidate with an exact hit emits
an exact IdentifiedTerm exactly when the standard differs case-sensitively
(and otherwise nothing — semantic retrieval is skipped on every exact hit);
only a candidate with NO exact hit queries semantic retrieval with `topK = 1`,
emitting a semantic IdentifiedTerm iff the single result qualifies
(similarity at least the threshold, term differing case-insensitively). -/
theorem C5_identification_pass (svc : TermService) (vs : VectorService)
    (text : Str) (thr : ℚ) (m : ℕ)
    (htext : text ≠ []) (hvs : svc.vector_service = some vs)
    (hinit : vs.is_initialized = true) :
    (identify_and_replace_terms svc text thr m).identified_terms
      = identificationPass svc.data_loader vs thr (extractCandidates text m) ∧
    (∀ c e es, search_exact svc.data_loader c = e :: es →
      processCandidate svc.data_loader vs thr c
        = if c ≠ e.term then
            [{ original := c, standard := e.term, similarity := 1,
               match_type := "exact" }]
          else []) ∧
    (∀ c b tl, search_exact svc.data_loader c = [] →
      vs.search_similar c 1 = Except.ok (b :: tl) →
      processCandidate svc.data_loader vs thr c
        = if thr ≤ b.similarity ∧ lower c ≠ lower b.term then
            [{ original := c, standard := b.term, similarity := b.similarity,
               match_type := "semantic" }]
          else []) ∧
    (∀ c, search_exact svc.data_loader c = [] →
      vs.search_similar c 1 = Except.ok [] →
      processCandidate svc.data_loader vs thr c = []) := by
  refine ⟨?_, ?_, ?_, ?_⟩
  · rw [identify_unfold svc vs text thr m htext hvs hinit]
  · intro c e es hse
    exact processCandidate_exact svc.data_loader vs thr c e es hse
  · intro c b tl hse hsr
    exact processCandidate_semantic svc.data_loader vs thr c b tl hse hsr
  · intro c hse hsr
    exact processCandidate_okNil svc.data_loader vs thr c hse hsr

/-- Witness for C5: the two branch shapes instantiated on `svcC5`. -/
theorem C5_witness :
    (identify_and_replace_terms svcC5 "Risk Hedge".toList (3 / 5) 2).identified_terms
      = identificationPass riskDict2 hedgeVS (3 / 5)
          (extractCandidates "Risk Hedge".toList 2) ∧
    processCandidate riskDict2 hedgeVS (3 / 5) "Risk".toList
      = (if "Risk".toList ≠ "Risk".toList then
          [{ original := "Risk".toList, standard := "Risk".toList,
             similarity := 1, match_type := "exact" }]
        else []) := by
  obtain ⟨h1, h2, h3, h4⟩ := C5_identification_pass svcC5 hedgeVS
    "Risk Hedge".toList (3 / 5) 2 (by decide) rfl rfl
  exact ⟨h1, h2 "Risk".toList { term := "Risk".toList, label := [] } []
    (by with_unfolding_all decide)⟩

/-! ### C10 — exact hits never reach semantic retrieval -/

lemma processCandidate_indep (dict : List DictEntry) (vs vs2 : VectorService)
    (thr : ℚ) (c : Str) (e : DictEntry) (es : List DictEntry)
    (hse : search_exact dict c = e :: es) :
    processCandidate dict vs thr c = processCandidate dict vs2 thr c := by
  rw [processCandidate_exact dict vs thr c e es hse,
    processCandidate_exact dict vs2 thr c e es hse]

lemma processCandidate_identical (dict : List DictEntry) (vs : VectorService)
    (thr : ℚ) (c : Str) (e : DictEntry) (es : List DictEntry)
    (hse : search_exact dict c = e :: es) (he : e.term = c) :
    processCandidate dict vs thr c = [] := by
  rw [processCandidate_exact dict vs thr c e es hse]
  rw [if_neg (by intro h; exact h he.symm)]

/-- C10: a candidate with at least one exact hit is never submitted to
semantic retrieval — its identification result does not depend on the vector
service at all; and when the hit is character-for-character identical, the
candidate yields no IdentifiedTerm and no ReplacementRecord in the whole
`identify_and_replace_terms` result, for any text. -/
theorem C10_exact_hit_never_semantic
    (dict : List DictEntry) (vs vs2 : VectorService) (thr : ℚ) (c : Str)
    (e : DictEntry) (es : List DictEntry)
    (hse : search_exact dict c = e :: es) :
    processCandidate dict vs thr c = processCandidate dict vs2 thr c ∧
    (e.term = c →
      processCandidate dict vs thr c = [] ∧
      (∀ (svc : TermService) (text : Str) (m : ℕ),
        svc.data_loader = dict → svc.vector_service = some vs →
        vs.is_initialized = true → text ≠ [] →
        (∀ it ∈ (identify_and_replace_terms svc text thr m).identified_terms,
          it.original ≠ c) ∧
        (∀ r ∈ (identify_and_replace_terms svc text thr m).replacements,
          r.original ≠ c))) := by
  refine ⟨processCandidate_indep dict vs vs2 thr c e es hse, fun he => ?_⟩
  have hzero := processCandidate_identical dict vs thr c e es hse he
  refine ⟨hzero, fun svc text m hdict hvs hinit htext => ?_⟩
  subst hdict
  have hu := identify_unfold svc vs text thr m htext hvs hinit
  have hidlist : ∀ it ∈ identificationPass svc.data_loader vs thr
      (extractCandidates text m), it.original ≠ c := by
    intro it hit heq
    obtain ⟨x, hx, hx2⟩ := identificationPass_mem svc.data_loader vs thr
      (extractCandidates text m) it hit
    have hox := processCandidate_original svc.data_loader vs thr x it hx2
    rw [hox] at heq
    rw [heq] at hx2
    rw [hzero] at hx2
    exact absurd hx2 (List.not_mem_nil it)
  constructor
  · rw [hu]
    intro it hit
    exact hidlist it hit
  · intro r hr heq
    rw [hu] at hr
    have horig := replaceStep_orig (sortByLenDesc (identificationPass
      svc.data_loader vs thr (extractCandidates text m))) (text, []) r hr
    rcases horig with h | h
    · obtain ⟨it, hit, hito⟩ := List.mem_map.mp h
      have hmem : it ∈ identificationPass svc.data_loader vs thr
          (extractCandidates text m) :=
        (sortByLenDesc_perm _).mem_iff.mp hit
      exact hidlist it hmem (hito.trans heq)
    · exact absurd h (List.not_mem_nil r)

/-- Witness for C10: the `Risk` candidate of `riskDict2` behaves identically
under the qualifying collaborator and the failing one, and contributes no
identified term and no replacement. -/
theorem C10_witness :
    processCandidate riskDict2 hedgeVS (3 / 5) "Risk".toList
      = processCandidate riskDict2 failVS (3 / 5) "Risk".toList ∧
    processCandidate riskDict2 hedgeVS (3 / 5) "Risk".toList = [] ∧
    (∀ it ∈ (identify_and_replace_terms svcC5 "Risk".toList (3 / 5) 2).identified_terms,
      it.original ≠ "Risk".toList) ∧
    (∀ r ∈ (identify_and_replace_terms svcC5 "Risk".toList (3 / 5) 2).replacements,
      r.original ≠ "Risk".toList) := by
  obtain ⟨h1, h2⟩ := C10_exact_hit_never_semantic riskDict2 hedgeVS failVS
    (3 / 5) "Risk".toList { term := "Risk".toList, label := [] } []
    (by with_unfolding_all decide)
  obtain ⟨h3, h4⟩ := h2 rfl
  obtain ⟨h5, h6⟩ := h4 svcC5 "Risk".toList 2 rfl rfl rfl (by decide)
  exact ⟨h1, h3, h5, h6⟩

end TermStd
